import Mathlib

/-!
Verification of an elliptic-curve library: short-Weierstrass group law over a
prime field (`is_valid`, `double`, `add`, scalar multiplication) together with
modular inverse via the extended Euclidean algorithm (`inverse_mod`).

All integers are embedded as `Int`; the library's floor modulus (`mod_floor`)
and floor division (`div_mod_floor`) become `Int.fmod` / `Int.fdiv`.
Operations that abort (a failed `assert`) return `none`.
-/

namespace ECRS

/-- The extended-Euclid loop of `inverse_mod` (src/utils.rs, lines 10-31).
State `(c, d, uc, vc, ud, vd)` is updated by
`(q, r) := div_mod_floor d c; (c, d) := (r, c);
(uc, vc, ud, vd) := (ud - q*uc, vd - q*vc, uc, vc)` until `c = 0`.
The result is the pair `(d, ud)` used after the loop.  The loop terminates
because `|c|` strictly decreases; `fuel` is an upper bound on the number of
remaining iterations (the caller passes `c.natAbs + 1`, which is enough, see
`inverseModLoop_fuel`). -/
def inverseModLoop : Nat → Int → Int → Int → Int → Int → Int → Int × Int
  | 0, _, d, _, _, ud, _ => (d, ud)
  | fuel + 1, c, d, uc, vc, ud, vd =>
    if c = 0 then (d, ud)
    else
      inverseModLoop fuel (Int.fmod d c) c
        (ud - Int.fdiv d c * uc) (vd - Int.fdiv d c * vc) uc vc

/-- `inverse_mod` (src/utils.rs, lines 5-39): normalize `a` by floor modulo
when it is negative or not below `m`, run the extended-Euclid loop from
`(c, d, uc, vc, ud, vd) = (a, m, 1, 0, 0, 1)`, abort (`assert_eq!(d, 1)`)
unless the final `d` is `1`, and return `ud`, shifted by `m` unless positive. -/
def inverse_mod (a m : Int) : Option Int :=
  let a' := if a < 0 ∨ m ≤ a then Int.fmod a m else a
  let r := inverseModLoop (a'.natAbs + 1) a' m 1 0 0 1
  if r.1 = 1 then some (if r.2 > 0 then r.2 else r.2 + m) else none

/-- A curve descriptor: the constants `p`, `a`, `b` of
`y^2 = x^3 + a*x + b (mod p)` (the `Curve` trait, src/lib.rs lines 133-137). -/
structure Curve where
  p : Int
  a : Int
  b : Int
deriving DecidableEq

/-- `PointValue` (src/lib.rs, lines 13-19). -/
inductive PointValue where
  | infinity
  | value (x y : Int)
deriving DecidableEq

/-- `Point` (src/lib.rs, lines 23-26); the phantom curve tag has no runtime
content, so a point is just its stored `PointValue`. -/
structure Point where
  value : PointValue
deriving DecidableEq

/-- `From<PointValue> for Point` (src/lib.rs, lines 28-35): store the given
value unchanged. -/
def Point.fromValue (v : PointValue) : Point :=
  { value := v }

/-- `Point::value` (src/lib.rs, lines 38-43): `None` for `Infinity`, the raw
stored coordinate pair otherwise. -/
def Point.getValue (P : Point) : Option (Int × Int) :=
  match P.value with
  | .infinity => none
  | .value x y => some (x, y)

/-- `Point::is_valid` (src/lib.rs, lines 59-66). -/
def is_valid (C : Curve) : PointValue → Bool
  | .infinity => true
  | .value x y => (y * y - (x * x * x + C.a * x + C.b)).fmod C.p == 0

/-- `Point::double` (src/lib.rs, lines 68-79).  `none` when `inverse_mod`
aborts. -/
def double (C : Curve) : PointValue → Option PointValue
  | .infinity => some .infinity
  | .value x y =>
    match inverse_mod (2 * y) C.p with
    | none => none
    | some i =>
      let l := ((3 * x * x + C.a) * i).fmod C.p
      let x3 := (l * l - 2 * x).fmod C.p
      let y3 := (l * (x - x3) - y).fmod C.p
      some (.value x3 y3)

/-- `Add for Point` (src/lib.rs, lines 85-109): the second operand is matched
first (`Infinity` returns the first operand), then the first; two affine
operands with equal raw `x` give `Infinity` or `double`, and otherwise the
chord formulas apply.  `none` when `inverse_mod` aborts. -/
def add (C : Curve) : PointValue → PointValue → Option PointValue
  | p1, .infinity => some p1
  | .infinity, .value ox oy => some (.value ox oy)
  | .value sx sy, .value ox oy =>
    if sx = ox then
      if (sy + oy).fmod C.p = 0 then some .infinity
      else double C (.value sx sy)
    else
      match inverse_mod (ox - sx) C.p with
      | none => none
      | some i =>
        let l := ((oy - sy) * i).fmod C.p
        let x3 := (l * l - sx - ox).fmod C.p
        let y3 := (l * (sx - x3) - sy).fmod C.p
        some (.value x3 y3)

/-- The `while other > 0 { ret = ret + self; ... }` loop of `Mul`
(src/lib.rs, lines 121-127): add `P` to the accumulator `n` more times. -/
def mulLoop (C : Curve) (P : PointValue) : PointValue → Nat → Option PointValue
  | acc, 0 => some acc
  | acc, n + 1 =>
    match add C acc P with
    | none => none
    | some r => mulLoop C P r n

/-- `Mul<BigInt> for Point` (src/lib.rs, lines 115-129): `assert!(k >= 0)`
aborts on a negative scalar; `0` yields `Infinity`; otherwise start from the
point and add it `k - 1` more times. -/
def mul (C : Curve) (P : PointValue) (k : Int) : Option PointValue :=
  if k < 0 then none
  else if k = 0 then some .infinity
  else mulLoop C P P (k - 1).toNat

/-! ### Arithmetic helper lemmas about floor modulus and gcd -/

theorem fmod_eq_zero_iff_dvd (a b : Int) : a.fmod b = 0 ↔ b ∣ a := by
  constructor
  · intro h
    have h2 := Int.fdiv_add_fmod a b
    rw [h, add_zero] at h2
    exact ⟨a.fdiv b, h2.symm⟩
  · rintro ⟨k, rfl⟩
    exact Int.mul_fmod_right b k

theorem dvd_sub_fmod (a b : Int) : b ∣ a - a.fmod b := by
  refine ⟨a.fdiv b, ?_⟩
  have := Int.fmod_def a b
  omega

theorem fmod_congr {p : Int} (a b : Int) (hp : 0 < p) (h : p ∣ a - b) :
    a.fmod p = b.fmod p := by
  rw [Int.fmod_eq_emod a hp.le, Int.fmod_eq_emod b hp.le,
    Int.emod_eq_emod_iff_emod_sub_eq_zero]
  exact Int.emod_eq_zero_of_dvd h

theorem gcd_sub_mul_left (a b q : Int) : Int.gcd (a - b * q) b = Int.gcd a b := by
  apply Nat.dvd_antisymm
  · rw [← Int.natCast_dvd_natCast]
    refine Int.dvd_gcd ?_ Int.gcd_dvd_right
    have h := dvd_add (Int.gcd_dvd_left (a := a - b * q) (b := b))
      ((Int.gcd_dvd_right (a := a - b * q) (b := b)).mul_right q)
    simpa using h
  · rw [← Int.natCast_dvd_natCast]
    refine Int.dvd_gcd ?_ Int.gcd_dvd_right
    exact dvd_sub (Int.gcd_dvd_left (a := a) (b := b))
      ((Int.gcd_dvd_right (a := a) (b := b)).mul_right q)

theorem gcd_fmod_left (a m : Int) : Int.gcd (a.fmod m) m = Int.gcd a m := by
  rw [Int.fmod_def]
  exact gcd_sub_mul_left a m (a.fdiv m)

/-! ### The extended-Euclid loop: Bézout identity, gcd, fuel irrelevance -/

theorem inverseModLoop_bezout (A M : Int) (fuel : Nat) :
    ∀ c d uc vc ud vd : Int, A * uc + M * vc = c → A * ud + M * vd = d →
      ∃ v, A * (inverseModLoop fuel c d uc vc ud vd).2 + M * v =
        (inverseModLoop fuel c d uc vc ud vd).1 := by
  induction fuel with
  | zero =>
    intro c d uc vc ud vd _ h2
    exact ⟨vd, by simpa [inverseModLoop] using h2⟩
  | succ n ih =>
    intro c d uc vc ud vd h1 h2
    by_cases hc : c = 0
    · exact ⟨vd, by simpa [inverseModLoop, hc] using h2⟩
    · have heq : inverseModLoop (n + 1) c d uc vc ud vd =
          inverseModLoop n (Int.fmod d c) c
            (ud - Int.fdiv d c * uc) (vd - Int.fdiv d c * vc) uc vc := by
        simp [inverseModLoop, hc]
      rw [heq]
      refine ih _ _ _ _ _ _ ?_ h1
      rw [Int.fmod_def]
      linear_combination h2 - Int.fdiv d c * h1

theorem inverseModLoop_gcd (fuel : Nat) :
    ∀ c d uc vc ud vd : Int, c.natAbs < fuel → 0 ≤ c → 0 < d →
      (inverseModLoop fuel c d uc vc ud vd).1 = (Int.gcd c d : Int) := by
  induction fuel with
  | zero => intro c d uc vc ud vd hf _ _; omega
  | succ n ih =>
    intro c d uc vc ud vd hf hc0 hd0
    by_cases hc : c = 0
    · subst hc
      simp [inverseModLoop, Int.gcd_zero_left, Int.natAbs_of_nonneg hd0.le]
    · have hcpos : 0 < c := lt_of_le_of_ne hc0 (Ne.symm hc)
      have heq : inverseModLoop (n + 1) c d uc vc ud vd =
          inverseModLoop n (Int.fmod d c) c
            (ud - Int.fdiv d c * uc) (vd - Int.fdiv d c * vc) uc vc := by
        simp [inverseModLoop, hc]
      have hr0 : 0 ≤ Int.fmod d c := Int.fmod_nonneg' d hcpos
      have hrlt : Int.fmod d c < c := Int.fmod_lt_of_pos d hcpos
      rw [heq, ih _ _ _ _ _ _ (by omega) hr0 hcpos]
      congr 1
      rw [Int.fmod_def, gcd_sub_mul_left, Int.gcd_comm]

/-! ### Basic properties of `inverse_mod` -/

theorem inverse_mod_norm (a m : Int) (_hm : 0 < m) :
    (if a < 0 ∨ m ≤ a then Int.fmod a m else a) = Int.fmod a m := by
  by_cases h : a < 0 ∨ m ≤ a
  · simp [h]
  · rw [if_neg h]
    push_neg at h
    exact (Int.fmod_eq_of_lt h.1 h.2).symm

theorem dvd_sub_norm (a m : Int) :
    m ∣ a - (if a < 0 ∨ m ≤ a then Int.fmod a m else a) := by
  by_cases h : a < 0 ∨ m ≤ a
  · simpa [h] using dvd_sub_fmod a m
  · simp [h]

/-- Whenever `inverse_mod` returns a value `r`, that value satisfies the
inverse congruence `a * r ≡ 1 (mod m)` (for any modulus, via the Bézout
identity maintained by the loop). -/
theorem inverse_mod_congruence (a m r : Int) (h : inverse_mod a m = some r) :
    m ∣ a * r - 1 := by
  simp only [inverse_mod] at h
  set A := if a < 0 ∨ m ≤ a then Int.fmod a m else a with hA
  obtain ⟨v, hv⟩ := inverseModLoop_bezout A m (A.natAbs + 1) A m 1 0 0 1
    (by ring) (by ring)
  set res := inverseModLoop (A.natAbs + 1) A m 1 0 0 1 with hres
  by_cases hg : res.1 = 1
  · rw [if_pos hg] at h
    have hr : r = if res.2 > 0 then res.2 else res.2 + m :=
      (Option.some_injective _ h).symm
    have hru : m ∣ r - res.2 := by
      by_cases hpos : res.2 > 0 <;> simp [hr, hpos]
    have hAa : m ∣ a - A := dvd_sub_norm a m
    have hbez : A * res.2 + m * v = 1 := by rw [hv, hg]
    have hsplit : a * r - 1 = (a - A) * r + A * (r - res.2) - m * v := by
      linear_combination hbez
    rw [hsplit]
    exact dvd_sub (dvd_add (hAa.mul_right r) (hru.mul_left A)) (dvd_mul_right m v)
  · rw [if_neg hg] at h
    exact absurd h (by simp)

/-- With a positive modulus, `inverse_mod` aborts exactly when the inputs are
not coprime (the `assert_eq!(d, 1)` on the final gcd). -/
theorem inverse_mod_eq_none_iff (a m : Int) (hm : 0 < m) :
    inverse_mod a m = none ↔ Int.gcd a m ≠ 1 := by
  simp only [inverse_mod, inverse_mod_norm a m hm]
  have h0 : 0 ≤ Int.fmod a m := Int.fmod_nonneg' a hm
  have hgcd := inverseModLoop_gcd ((Int.fmod a m).natAbs + 1)
    (Int.fmod a m) m 1 0 0 1 (by omega) h0 hm
  rw [hgcd]
  rw [gcd_fmod_left]
  by_cases hg : Int.gcd a m = 1
  · simp [hg]
  · have : ((Int.gcd a m : Nat) : Int) ≠ 1 := by
      exact_mod_cast hg
    simp [this, hg]

/-- With a positive modulus, `inverse_mod` only depends on `a` through
`a.fmod m`. -/
theorem inverse_mod_congr (a b m : Int) (hm : 0 < m)
    (h : a.fmod m = b.fmod m) : inverse_mod a m = inverse_mod b m := by
  simp only [inverse_mod]
  rw [inverse_mod_norm a m hm, inverse_mod_norm b m hm, h]

/-- The sign/magnitude invariant of the Bézout coefficients `uc`, `ud`: they
carry opposite signs and `|ud| ≤ |uc|`. -/
def SignInv (uc ud : Int) : Prop :=
  (0 ≤ uc ∧ ud ≤ 0 ∧ -ud ≤ uc) ∨ (uc ≤ 0 ∧ 0 ≤ ud ∧ ud ≤ -uc)

/-- Full invariant of the extended-Euclid loop: on exit the returned pair
`(g, u)` satisfies the Bézout identities together with the determinant,
sign and magnitude conditions of the final state. -/
theorem inverseModLoop_invariant (A M : Int) (fuel : Nat) :
    ∀ c d uc vc ud vd : Int, c.natAbs < fuel →
      0 ≤ c → c < d →
      A * uc + M * vc = c →
      A * ud + M * vd = d →
      (uc * vd - vc * ud = 1 ∨ uc * vd - vc * ud = -1) →
      SignInv uc ud →
      ∃ uc' vc' vd',
        A * uc' + M * vc' = 0 ∧
        A * (inverseModLoop fuel c d uc vc ud vd).2 + M * vd' =
          (inverseModLoop fuel c d uc vc ud vd).1 ∧
        (uc' * vd' - vc' * (inverseModLoop fuel c d uc vc ud vd).2 = 1 ∨
         uc' * vd' - vc' * (inverseModLoop fuel c d uc vc ud vd).2 = -1) ∧
        SignInv uc' (inverseModLoop fuel c d uc vc ud vd).2 ∧
        0 < (inverseModLoop fuel c d uc vc ud vd).1 := by
  induction fuel with
  | zero => intro c d uc vc ud vd hf _ _ _ _ _ _; omega
  | succ n ih =>
    intro c d uc vc ud vd hf hc0 hcd hb1 hb2 hdet hsgn
    by_cases hc : c = 0
    · subst hc
      have heq : inverseModLoop (n + 1) 0 d uc vc ud vd = (d, ud) := by
        simp [inverseModLoop]
      rw [heq]
      exact ⟨uc, vc, vd, hb1, hb2, hdet, hsgn, hcd⟩
    · have hcpos : 0 < c := lt_of_le_of_ne hc0 (Ne.symm hc)
      have heq : inverseModLoop (n + 1) c d uc vc ud vd =
          inverseModLoop n (Int.fmod d c) c
            (ud - Int.fdiv d c * uc) (vd - Int.fdiv d c * vc) uc vc := by
        simp [inverseModLoop, hc]
      set q := Int.fdiv d c with hq
      set r := Int.fmod d c with hr
      have hdc : c * q + r = d := Int.fdiv_add_fmod d c
      have hr0 : 0 ≤ r := Int.fmod_nonneg' d hcpos
      have hrlt : r < c := Int.fmod_lt_of_pos d hcpos
      have hq1 : 1 ≤ q := by
        by_contra hqle
        push_neg at hqle
        have hq0 : q ≤ 0 := by omega
        have : c * q ≤ 0 := mul_nonpos_of_nonneg_of_nonpos hc0 hq0
        omega
      have hucud : uc ≠ 0 ∨ ud ≠ 0 := by
        by_contra hboth
        push_neg at hboth
        rcases hdet with hd1 | hd1 <;>
          rw [hboth.1, hboth.2] at hd1 <;> simp at hd1
      rw [heq]
      refine ih r c (ud - q * uc) (vd - q * vc) uc vc (by omega) hr0 hrlt
        (by linear_combination hb2 - q * hb1 - hdc) hb1 ?_ ?_
      · rcases hdet with hd1 | hd1
        · right; linear_combination -hd1
        · left; linear_combination -hd1
      · rcases hsgn with ⟨h1, h2, h3⟩ | ⟨h1, h2, h3⟩
        · right
          have hqc : uc ≤ q * uc := le_mul_of_one_le_left h1 hq1

          constructor
          · omega
          · constructor
            · exact h1
            · omega
        · left
          have hqc : q * uc ≤ uc := by
            nlinarith [mul_nonneg (sub_nonneg.mpr hq1) (neg_nonneg.mpr h1)]
          constructor
          · omega
          · constructor
            · exact h1
            · omega

/-- For a modulus `m ≥ 2` and `a` coprime to `m`, `inverse_mod` returns a
value in `[0, m)` satisfying the inverse congruence. -/
theorem inverse_mod_full (a m : Int) (hm : 2 ≤ m) (hg : Int.gcd a m = 1) :
    ∃ r, inverse_mod a m = some r ∧ 0 ≤ r ∧ r < m ∧ m ∣ a * r - 1 := by
  have hm0 : 0 < m := by omega
  have hnorm := inverse_mod_norm a m hm0
  set A := Int.fmod a m with hA
  have hA0 : 0 ≤ A := Int.fmod_nonneg' a hm0
  have hAm : A < m := Int.fmod_lt_of_pos a hm0
  set res := inverseModLoop (A.natAbs + 1) A m 1 0 0 1 with hres
  have hgcd : res.1 = (Int.gcd A m : Int) :=
    inverseModLoop_gcd _ A m 1 0 0 1 (by omega) hA0 hm0
  have hgA : Int.gcd A m = 1 := by rw [hA, gcd_fmod_left, hg]
  have hg1 : res.1 = 1 := by rw [hgcd, hgA]; rfl
  obtain ⟨uc', vc', vd', hB0, hBg, hdet', hsgn', _⟩ :=
    inverseModLoop_invariant A m (A.natAbs + 1) A m 1 0 0 1 (by omega) hA0 hAm
      (by ring) (by ring) (Or.inl (by ring)) (Or.inl (by norm_num))
  rw [← hres] at hBg hdet' hsgn'
  rw [hg1] at hBg
  have hMdelta : m * (uc' * vd' - vc' * res.2) = uc' := by
    linear_combination uc' * hBg - res.2 * hB0
  have hmne : ¬ m ∣ (1 : Int) := fun hdvd => by
    have := Int.le_of_dvd one_pos hdvd; omega
  have hune : res.2 ≠ 0 := by
    intro h0
    rw [h0] at hBg
    exact hmne ⟨vd', by linarith⟩
  have heq : inverse_mod a m = some (if res.2 > 0 then res.2 else res.2 + m) := by
    simp only [inverse_mod]
    rw [hnorm, ← hres, if_pos hg1]
  have hucm : uc' = m ∨ uc' = -m := by
    rcases hdet' with hd | hd
    · left; rw [hd] at hMdelta; omega
    · right; rw [hd] at hMdelta; omega
  have hrange : (0 < res.2 ∧ res.2 < m) ∨ (-m < res.2 ∧ res.2 < 0) := by
    rcases hucm with huc | huc
    · rcases hsgn' with ⟨hs1, hs2, hs3⟩ | ⟨hs1, hs2, hs3⟩
      · right
        have hne : res.2 ≠ -m := by
          intro hu
          rcases hdet' with hd | hd
          · rw [huc, hu] at hd
            exact hmne ⟨vd' + vc', by linear_combination -hd⟩
          · rw [huc, hu] at hd
            exact hmne ⟨-vd' - vc', by linear_combination hd⟩
        rw [huc] at hs3
        omega
      · omega
    · rcases hsgn' with ⟨hs1, hs2, hs3⟩ | ⟨hs1, hs2, hs3⟩
      · omega
      · left
        have hne : res.2 ≠ m := by
          intro hu
          rcases hdet' with hd | hd
          · rw [huc, hu] at hd
            exact hmne ⟨-vd' - vc', by linear_combination -hd⟩
          · rw [huc, hu] at hd
            exact hmne ⟨vd' + vc', by linear_combination hd⟩
        rw [huc] at hs3
        omega
  rcases hrange with ⟨h1, h2⟩ | ⟨h1, h2⟩
  · refine ⟨res.2, ?_, by omega, by omega, ?_⟩
    · rw [heq, if_pos h1]
    · exact inverse_mod_congruence a m res.2 (by rw [heq, if_pos h1])
  · refine ⟨res.2 + m, ?_, by omega, by omega, ?_⟩
    · rw [heq, if_neg (by omega)]
    · exact inverse_mod_congruence a m (res.2 + m) (by rw [heq, if_neg (by omega)])

/-! ### Transfer to `ZMod` and the chord/tangent algebra -/

theorem intCast_fmod_zmod (p a : Int) :
    ((Int.fmod a p : Int) : ZMod p.natAbs) = (a : ZMod p.natAbs) := by
  have h : ((p : Int) : ZMod p.natAbs) = 0 := by
    rw [ZMod.intCast_zmod_eq_zero_iff_dvd]
    exact Int.natAbs_dvd.mpr dvd_rfl
  rw [Int.fmod_def]
  push_cast
  rw [h]
  ring

theorem dvd_iff_zmod (p z : Int) : p ∣ z ↔ ((z : Int) : ZMod p.natAbs) = 0 := by
  rw [ZMod.intCast_zmod_eq_zero_iff_dvd, Int.natAbs_dvd]

theorem is_valid_value_iff (C : Curve) (x y : Int) :
    is_valid C (.value x y) = true ↔
      C.p ∣ y * y - (x * x * x + C.a * x + C.b) := by
  simp only [is_valid, beq_iff_eq]
  exact fmod_eq_zero_iff_dvd _ _

/-- Chord case of the group law: in any commutative ring, if two points lie on
the curve and the slope denominator `X2 - X1` has inverse `I`, the chord
formulas produce a point on the curve. -/
theorem chord_valid {R : Type} [CommRing R] (A B X1 Y1 X2 Y2 I L X3 Y3 : R)
    (h1 : Y1 * Y1 - (X1 * X1 * X1 + A * X1 + B) = 0)
    (h2 : Y2 * Y2 - (X2 * X2 * X2 + A * X2 + B) = 0)
    (hI : (X2 - X1) * I - 1 = 0)
    (hl : L = (Y2 - Y1) * I)
    (hx3 : X3 = L * L - X1 - X2)
    (hy3 : Y3 = L * (X1 - X3) - Y1) :
    Y3 * Y3 - (X3 * X3 * X3 + A * X3 + B) = 0 := by
  have hL : L * (X2 - X1) - (Y2 - Y1) = 0 := by
    rw [hl]; linear_combination (Y2 - Y1) * hI
  rw [hy3, hx3]
  linear_combination (I * (X2 - (L * L - X1 - X2))) * h1
    + (I * ((L * L - X1 - X2) - X1)) * h2
    + (I * ((L * L - X1 - X2) - X1) * (L * (X2 - X1) + Y1 + Y2)) * hL
    - ((L * (X1 - (L * L - X1 - X2)) - Y1) ^ 2
        - ((L * L - X1 - X2) ^ 3 + A * (L * L - X1 - X2) + B)) * hI

/-- Tangent case of the group law: the doubling formulas keep a curve point on
the curve whenever `2Y` has inverse `I`. -/
theorem tangent_valid {R : Type} [CommRing R] (A B X Y I L X3 Y3 : R)
    (h1 : Y * Y - (X * X * X + A * X + B) = 0)
    (hI : 2 * Y * I - 1 = 0)
    (hl : L = (3 * X * X + A) * I)
    (hx3 : X3 = L * L - 2 * X)
    (hy3 : Y3 = L * (X - X3) - Y) :
    Y3 * Y3 - (X3 * X3 * X3 + A * X3 + B) = 0 := by
  have hT : L * (2 * Y) - (3 * X * X + A) = 0 := by
    rw [hl]; linear_combination (3 * X * X + A) * hI
  rw [hy3, hx3]
  linear_combination h1 + ((L * L - 2 * X) - X) * hT

/-- Doubling a valid point yields a valid point (whenever it succeeds). -/
theorem double_is_valid (C : Curve) (P Q : PointValue)
    (hP : is_valid C P = true) (hQ : double C P = some Q) :
    is_valid C Q = true := by
  cases P with
  | infinity =>
    obtain rfl : PointValue.infinity = Q := by simpa [double] using hQ
    rfl
  | value x y =>
    rcases hi : inverse_mod (2 * y) C.p with _ | i
    · rw [double, hi] at hQ
      exact absurd hQ (by simp)
    · rw [double, hi] at hQ
      rw [Option.some_inj] at hQ
      subst hQ
      rw [is_valid_value_iff, dvd_iff_zmod]
      have h1 : ((y : ZMod C.p.natAbs) * y - (x * x * x + C.a * x + C.b)) = 0 := by
        have h := (dvd_iff_zmod _ _).mp ((is_valid_value_iff C x y).mp hP)
        push_cast at h
        linear_combination h
      have hIc : (2 * (y : ZMod C.p.natAbs) * i - 1) = 0 := by
        have h := (dvd_iff_zmod _ _).mp (inverse_mod_congruence _ _ _ hi)
        push_cast at h
        linear_combination h
      have hl : ((((3 * x * x + C.a) * i).fmod C.p : Int) : ZMod C.p.natAbs) =
          (3 * (x : ZMod C.p.natAbs) * x + C.a) * i := by
        rw [intCast_fmod_zmod]
        push_cast
        ring
      have hx3 : ((((((3 * x * x + C.a) * i).fmod C.p) * (((3 * x * x + C.a) * i).fmod C.p)
            - 2 * x).fmod C.p : Int) : ZMod C.p.natAbs) =
          ((((3 * x * x + C.a) * i).fmod C.p : Int) : ZMod C.p.natAbs) *
            ((((3 * x * x + C.a) * i).fmod C.p : Int) : ZMod C.p.natAbs) -
            2 * (x : ZMod C.p.natAbs) := by
        rw [intCast_fmod_zmod]
        push_cast
        ring
      push_cast
      refine tangent_valid _ _ _ _ ((i : ZMod C.p.natAbs)) _ _ _ h1 hIc hl hx3 ?_
      rw [intCast_fmod_zmod]
      push_cast
      ring

/-- C5: closure of the group law — for all valid points `P`, `Q` on the same
curve (`Infinity` is always valid; an affine `(x, y)` is valid iff
`(y² − (x³ + a·x + b)) mod p = 0` under floor modulo, for any integer encoding
of the coordinates), whenever `add(P, Q)` produces a result `R`, that result
is itself valid. -/
theorem add_is_valid (C : Curve) (P Q R : PointValue)
    (hP : is_valid C P = true) (hQ : is_valid C Q = true)
    (hR : add C P Q = some R) : is_valid C R = true := by
  cases Q with
  | infinity =>
    obtain rfl : P = R := by simpa [add] using hR
    exact hP
  | value x2 y2 =>
    cases P with
    | infinity =>
      obtain rfl : PointValue.value x2 y2 = R := by simpa [add] using hR
      exact hQ
    | value x1 y1 =>
      simp only [add] at hR
      by_cases hx : x1 = x2
      · rw [if_pos hx] at hR
        by_cases hy : (y1 + y2).fmod C.p = 0
        · rw [if_pos hy] at hR
          obtain rfl : PointValue.infinity = R := by simpa using hR
          rfl
        · rw [if_neg hy] at hR
          exact double_is_valid C _ R hP hR
      · rw [if_neg hx] at hR
        rcases hi : inverse_mod (x2 - x1) C.p with _ | i
        · rw [hi] at hR
          exact absurd hR (by simp)
        · rw [hi] at hR
          rw [Option.some_inj] at hR
          subst hR
          rw [is_valid_value_iff, dvd_iff_zmod]
          have h1 : ((y1 : ZMod C.p.natAbs) * y1 -
              (x1 * x1 * x1 + C.a * x1 + C.b)) = 0 := by
            have h := (dvd_iff_zmod _ _).mp ((is_valid_value_iff C x1 y1).mp hP)
            push_cast at h
            linear_combination h
          have h2 : ((y2 : ZMod C.p.natAbs) * y2 -
              (x2 * x2 * x2 + C.a * x2 + C.b)) = 0 := by
            have h := (dvd_iff_zmod _ _).mp ((is_valid_value_iff C x2 y2).mp hQ)
            push_cast at h
            linear_combination h
          have hIc : (((x2 : ZMod C.p.natAbs) - x1) * i - 1) = 0 := by
            have h := (dvd_iff_zmod _ _).mp (inverse_mod_congruence _ _ _ hi)
            push_cast at h
            linear_combination h
          have hl : ((((y2 - y1) * i).fmod C.p : Int) : ZMod C.p.natAbs) =
              ((y2 : ZMod C.p.natAbs) - y1) * i := by
            rw [intCast_fmod_zmod]
            push_cast
            ring
          have hx3 : ((((((y2 - y1) * i).fmod C.p) * (((y2 - y1) * i).fmod C.p)
                - x1 - x2).fmod C.p : Int) : ZMod C.p.natAbs) =
              ((((y2 - y1) * i).fmod C.p : Int) : ZMod C.p.natAbs) *
                ((((y2 - y1) * i).fmod C.p : Int) : ZMod C.p.natAbs) -
                (x1 : ZMod C.p.natAbs) - (x2 : ZMod C.p.natAbs) := by
            rw [intCast_fmod_zmod]
            push_cast
            ring
          push_cast
          refine chord_valid _ _ _ _ _ _ ((i : ZMod C.p.natAbs)) _ _ _
            h1 h2 hIc hl hx3 ?_
          rw [intCast_fmod_zmod]
          push_cast
          ring

/-! ### Shape lemmas for `add` and commutativity -/

theorem add_infinity_right (C : Curve) (P : PointValue) :
    add C P .infinity = some P := by
  cases P <;> rfl

theorem add_infinity_left (C : Curve) (Q : PointValue) :
    add C .infinity Q = some Q := by
  cases Q <;> rfl

theorem add_same_x (C : Curve) (x1 y1 y2 : Int) :
    add C (.value x1 y1) (.value x1 y2) =
      if (y1 + y2).fmod C.p = 0 then some .infinity
      else double C (.value x1 y1) := by
  simp [add]

theorem double_value (C : Curve) (x y i : Int)
    (hi : inverse_mod (2 * y) C.p = some i) :
    double C (.value x y) = some (.value
      ((((3 * x * x + C.a) * i).fmod C.p * (((3 * x * x + C.a) * i).fmod C.p)
        - 2 * x).fmod C.p)
      ((((3 * x * x + C.a) * i).fmod C.p *
          (x - (((3 * x * x + C.a) * i).fmod C.p * (((3 * x * x + C.a) * i).fmod C.p)
            - 2 * x).fmod C.p) - y).fmod C.p)) := by
  simp only [double, hi]

theorem double_none (C : Curve) (x y : Int)
    (hi : inverse_mod (2 * y) C.p = none) :
    double C (.value x y) = none := by
  simp only [double, hi]

theorem add_general (C : Curve) (x1 y1 x2 y2 i : Int) (hx : x1 ≠ x2)
    (hi : inverse_mod (x2 - x1) C.p = some i) :
    add C (.value x1 y1) (.value x2 y2) =
      some (.value
        ((((y2 - y1) * i).fmod C.p * (((y2 - y1) * i).fmod C.p) - x1 - x2).fmod C.p)
        ((((y2 - y1) * i).fmod C.p *
            (x1 - ((((y2 - y1) * i).fmod C.p * (((y2 - y1) * i).fmod C.p)
              - x1 - x2).fmod C.p)) - y1).fmod C.p)) := by
  simp only [add, if_neg hx, hi]

theorem add_general_none (C : Curve) (x1 y1 x2 y2 : Int) (hx : x1 ≠ x2)
    (hi : inverse_mod (x2 - x1) C.p = none) :
    add C (.value x1 y1) (.value x2 y2) = none := by
  simp only [add, if_neg hx, hi]

/-- `double` only depends on the `y`-coordinate modulo `p`. -/
theorem double_congr (C : Curve) (x y1 y2 : Int) (hp : 0 < C.p)
    (h : C.p ∣ y1 - y2) : double C (.value x y1) = double C (.value x y2) := by
  have hinv : inverse_mod (2 * y1) C.p = inverse_mod (2 * y2) C.p := by
    apply inverse_mod_congr _ _ _ hp
    apply fmod_congr _ _ hp
    have e : 2 * y1 - 2 * y2 = 2 * (y1 - y2) := by ring
    rw [e]
    exact h.mul_left 2
  rcases hi : inverse_mod (2 * y2) C.p with _ | i
  · rw [double_none C x y1 (hinv.trans hi), double_none C x y2 hi]
  · rw [double_value C x y1 i (hinv.trans hi), double_value C x y2 i hi]
    have hy : (((3 * x * x + C.a) * i).fmod C.p *
        (x - (((3 * x * x + C.a) * i).fmod C.p * (((3 * x * x + C.a) * i).fmod C.p)
          - 2 * x).fmod C.p) - y1).fmod C.p =
        (((3 * x * x + C.a) * i).fmod C.p *
        (x - (((3 * x * x + C.a) * i).fmod C.p * (((3 * x * x + C.a) * i).fmod C.p)
          - 2 * x).fmod C.p) - y2).fmod C.p := by
      apply fmod_congr _ _ hp
      have e : (((3 * x * x + C.a) * i).fmod C.p *
          (x - (((3 * x * x + C.a) * i).fmod C.p * (((3 * x * x + C.a) * i).fmod C.p)
            - 2 * x).fmod C.p) - y1) -
          (((3 * x * x + C.a) * i).fmod C.p *
          (x - (((3 * x * x + C.a) * i).fmod C.p * (((3 * x * x + C.a) * i).fmod C.p)
            - 2 * x).fmod C.p) - y2) = y2 - y1 := by ring
      rw [e]
      have e2 : y2 - y1 = -(y1 - y2) := by ring
      rw [e2]
      exact dvd_neg.mpr h
    rw [hy]

/-- C7: commutativity of addition — for all valid points `P`, `Q` on the same
curve, `add(P, Q) = add(Q, P)`.  The curve modulus is assumed prime, as the
curve-descriptor contract requires (`p` an odd prime, unchecked by the code);
for composite `p` commutativity genuinely fails on valid points. -/
theorem add_comm_points (C : Curve) (P Q : PointValue)
    (hp2 : 2 ≤ C.p) (hpr : Prime C.p)
    (hP : is_valid C P = true) (hQ : is_valid C Q = true) :
    add C P Q = add C Q P := by
  have hp : (0 : Int) < C.p := by omega
  cases P with
  | infinity => rw [add_infinity_left, add_infinity_right]
  | value x1 y1 =>
    cases Q with
    | infinity => rw [add_infinity_left, add_infinity_right]
    | value x2 y2 =>
      by_cases hx : x1 = x2
      · subst hx
        rw [add_same_x, add_same_x]
        have hcomm : y2 + y1 = y1 + y2 := by ring
        rw [hcomm]
        by_cases hy : (y1 + y2).fmod C.p = 0
        · rw [if_pos hy, if_pos hy]
        · rw [if_neg hy, if_neg hy]
          apply double_congr C x1 y1 y2 hp
          have hv1 := (is_valid_value_iff C x1 y1).mp hP
          have hv2 := (is_valid_value_iff C x1 y2).mp hQ
          have hprod : C.p ∣ (y1 - y2) * (y1 + y2) := by
            have e : (y1 - y2) * (y1 + y2) =
                (y1 * y1 - (x1 * x1 * x1 + C.a * x1 + C.b)) -
                (y2 * y2 - (x1 * x1 * x1 + C.a * x1 + C.b)) := by ring
            rw [e]
            exact dvd_sub hv1 hv2
          rcases hpr.2.2 _ _ hprod with hd | hd
          · exact hd
          · exact absurd ((fmod_eq_zero_iff_dvd _ _).mpr hd) hy
      · have hx' : x2 ≠ x1 := fun h => hx h.symm
        have hgcd : Int.gcd (x1 - x2) C.p = Int.gcd (x2 - x1) C.p := by
          have e : x1 - x2 = -(x2 - x1) := by ring
          rw [e, Int.neg_gcd]
        rcases hi1 : inverse_mod (x2 - x1) C.p with _ | i1
        · have hi2 : inverse_mod (x1 - x2) C.p = none :=
            (inverse_mod_eq_none_iff _ _ hp).mpr
              (by rw [hgcd]; exact (inverse_mod_eq_none_iff _ _ hp).mp hi1)
          rw [add_general_none C x1 y1 x2 y2 hx hi1,
            add_general_none C x2 y2 x1 y1 hx' hi2]
        · rcases hi2 : inverse_mod (x1 - x2) C.p with _ | i2
          · exfalso
            have h1 := (inverse_mod_eq_none_iff _ _ hp).mp hi2
            rw [hgcd] at h1
            have hnone : inverse_mod (x2 - x1) C.p = none :=
              (inverse_mod_eq_none_iff _ _ hp).mpr h1
            rw [hi1] at hnone
            exact absurd hnone (by simp)
          · rw [add_general C x1 y1 x2 y2 i1 hx hi1,
              add_general C x2 y2 x1 y1 i2 hx' hi2]
            have hc1 : C.p ∣ (x2 - x1) * i1 - 1 := inverse_mod_congruence _ _ _ hi1
            have hc2 : C.p ∣ (x1 - x2) * i2 - 1 := inverse_mod_congruence _ _ _ hi2
            have hgcd1 : Int.gcd (x2 - x1) C.p = 1 := by
              by_contra hne
              have hnone := (inverse_mod_eq_none_iff _ _ hp).mpr hne
              rw [hi1] at hnone
              exact absurd hnone (by simp)
            have hnd : ¬ C.p ∣ (x2 - x1) := by
              intro hdvd
              have hg := Int.gcd_eq_right hdvd
              rw [hg] at hgcd1
              have hcast : (C.p.natAbs : Int) = C.p := Int.natAbs_of_nonneg hp.le
              omega
            have hii : C.p ∣ i1 + i2 := by
              have hd : C.p ∣ (x2 - x1) * (i1 + i2) := by
                have e : (x2 - x1) * (i1 + i2) =
                    ((x2 - x1) * i1 - 1) - ((x1 - x2) * i2 - 1) := by ring
                rw [e]
                exact dvd_sub hc1 hc2
              rcases hpr.2.2 _ _ hd with hd' | hd'
              · exact absurd hd' hnd
              · exact hd'
            have hl : ((y2 - y1) * i1).fmod C.p = ((y1 - y2) * i2).fmod C.p := by
              apply fmod_congr _ _ hp
              have e : (y2 - y1) * i1 - (y1 - y2) * i2 = (y2 - y1) * (i1 + i2) := by
                ring
              rw [e]
              exact hii.mul_left _
            set l := ((y2 - y1) * i1).fmod C.p with hldef
            rw [← hl]
            have hx3 : (l * l - x2 - x1).fmod C.p = (l * l - x1 - x2).fmod C.p := by
              have e : l * l - x2 - x1 = l * l - x1 - x2 := by ring
              rw [e]
            rw [hx3]
            have hds2 : C.p ∣ l - (y2 - y1) * i1 := by
              rw [hldef]
              have e2 : ((y2 - y1) * i1).fmod C.p - (y2 - y1) * i1 =
                  -((y2 - y1) * i1 - ((y2 - y1) * i1).fmod C.p) := by ring
              rw [e2]
              exact dvd_neg.mpr (dvd_sub_fmod _ _)
            have hy3 : (l * (x2 - (l * l - x1 - x2).fmod C.p) - y2).fmod C.p =
                (l * (x1 - (l * l - x1 - x2).fmod C.p) - y1).fmod C.p := by
              apply fmod_congr _ _ hp
              have e : (l * (x2 - (l * l - x1 - x2).fmod C.p) - y2) -
                  (l * (x1 - (l * l - x1 - x2).fmod C.p) - y1) =
                  (l - (y2 - y1) * i1) * (x2 - x1) +
                    (y2 - y1) * ((x2 - x1) * i1 - 1) := by ring
              rw [e]
              exact dvd_add (hds2.mul_right _) (hc1.mul_left _)
            rw [hy3]

/-- Modelled from the spec (§4.5): the reference definition of scalar
multiplication by repeated addition — `k = 0` yields `Infinity`; for `k > 0`
the result is the point, then the point added `k − 1` more times. -/
def multiplySpec (C : Curve) (P : PointValue) : Nat → Option PointValue
  | 0 => some .infinity
  | 1 => some P
  | n + 2 =>
    match multiplySpec C P (n + 1) with
    | none => none
    | some acc => add C acc P

theorem mulLoop_succ (C : Curve) (P : PointValue) :
    ∀ (n : Nat) (acc : PointValue), mulLoop C P acc (n + 1) =
      match mulLoop C P acc n with
      | none => none
      | some r => add C r P := by
  intro n
  induction n with
  | zero =>
    intro acc
    cases h : add C acc P <;> simp [mulLoop, h]
  | succ n ih =>
    intro acc
    cases h : add C acc P with
    | none => simp [mulLoop, h]
    | some r =>
      simp only [mulLoop, h]
      exact ih r

theorem mulLoop_eq_multiplySpec (C : Curve) (P : PointValue) :
    ∀ n : Nat, mulLoop C P P n = multiplySpec C P (n + 1) := by
  intro n
  induction n with
  | zero => rfl
  | succ n ih =>
    rw [mulLoop_succ, ih]
    rfl

theorem mul_eq_multiplySpec (C : Curve) (P : PointValue) (k : Int) (hk : 0 ≤ k) :
    mul C P k = multiplySpec C P k.toNat := by
  by_cases h0 : k = 0
  · subst h0
    rfl
  · have hpos : 0 < k := by omega
    simp only [mul]
    rw [if_neg (by omega : ¬ k < 0), if_neg h0, mulLoop_eq_multiplySpec]
    congr 1
    omega

/-! ### Claim theorems -/

/-- C10: `Point::from` performs no validation and no reduction — it stores the
given `PointValue` unchanged (even off-curve, negative, or unreduced
coordinates), and `value()` returns `None` exactly for `Infinity` and
otherwise the raw stored pair, unmodified. -/
theorem point_construction_raw (v : PointValue) (x y : Int) :
    (Point.fromValue v).value = v ∧
    ((Point.fromValue v).getValue = none ↔ v = .infinity) ∧
    (v = .value x y → (Point.fromValue v).getValue = some (x, y)) := by
  refine ⟨rfl, ?_, ?_⟩
  · cases v <;> simp [Point.getValue, Point.fromValue]
  · rintro rfl
    rfl

theorem point_construction_raw_witness :
    (Point.fromValue (.value 7 (-3))).getValue = some (7, -3) :=
  (point_construction_raw (.value 7 (-3)) 7 (-3)).2.2 rfl

/-- C4: `multiply` agrees with the repeated-addition reference definition for
every scalar `k ≥ 0`, and `multiply(P, 1) = P`. -/
theorem mul_is_repeated_addition (C : Curve) (P : PointValue) (k : Int) :
    (0 ≤ k → mul C P k = multiplySpec C P k.toNat) ∧ mul C P 1 = some P := by
  refine ⟨mul_eq_multiplySpec C P k, ?_⟩
  rw [mul_eq_multiplySpec C P 1 (by norm_num)]
  rfl

theorem mul_is_repeated_addition_witness :
    mul ⟨13, 1, 7⟩ (.value 9 11) 3 =
      multiplySpec ⟨13, 1, 7⟩ (.value 9 11) ((3 : Int).toNat) ∧
    mul ⟨13, 1, 7⟩ (.value 9 11) 1 = some (.value 9 11) :=
  ⟨(mul_is_repeated_addition ⟨13, 1, 7⟩ (.value 9 11) 3).1 (by norm_num),
   (mul_is_repeated_addition ⟨13, 1, 7⟩ (.value 9 11) 3).2⟩

/-- C9 (amended): a negative scalar is rejected (the computation aborts)
before any group arithmetic, and the scalar is never wrapped; a non-negative
scalar always passes the precondition check and proceeds to the
repeated-addition loop (which may itself still abort when a modular inverse
inside `add` fails). -/
theorem mul_rejects_negative (C : Curve) (P : PointValue) (k : Int) :
    (k < 0 → mul C P k = none) ∧
    (0 ≤ k → mul C P k =
      if k = 0 then some .infinity else mulLoop C P P (k - 1).toNat) := by
  constructor
  · intro h
    simp [mul, h]
  · intro h
    simp only [mul]
    rw [if_neg (by omega : ¬ k < 0)]

theorem mul_rejects_negative_witness :
    mul ⟨13, 1, 7⟩ (.value 9 11) (-2) = none ∧
    mul ⟨13, 1, 7⟩ (.value 9 11) 2 =
      (if (2 : Int) = 0 then some .infinity
       else mulLoop ⟨13, 1, 7⟩ (.value 9 11) (.value 9 11) ((2 : Int) - 1).toNat) :=
  ⟨(mul_rejects_negative ⟨13, 1, 7⟩ (.value 9 11) (-2)).1 (by norm_num),
   (mul_rejects_negative ⟨13, 1, 7⟩ (.value 9 11) 2).2 (by norm_num)⟩

/-- C9 counterexample: `multiply` can also abort for a non-negative scalar
(`k = 3` on the curve `p = 9, a = 0, b = 0` at the point `(1, 1)`: the loop
reaches an `inverse_mod` call with non-coprime arguments), so the claim that
it aborts only for negative `k` is false. -/
theorem mul_aborts_nonneg_cex :
    ¬((3 : Int) < 0) ∧ mul ⟨9, 0, 0⟩ (.value 1 1) 3 = none := by
  constructor
  · decide
  · decide

/-- C6 (amended): for every valid point `P` that is `Infinity` or whose
`y`-coordinate satisfies `(y + y) mod p ≠ 0`, `add(P, P) = double(P)`.
(For valid affine points with `(y + y) mod p = 0` — points of order 2 —
`add(P, P)` is `Infinity` while `double(P)` aborts, see the counterexample.) -/
theorem add_self_eq_double (C : Curve) (P : PointValue)
    (hP : is_valid C P = true)
    (h2y : ∀ x y : Int, P = .value x y → (y + y).fmod C.p ≠ 0) :
    add C P P = double C P := by
  cases P with
  | infinity => rfl
  | value x y =>
    rw [add_same_x, if_neg (h2y x y rfl)]

theorem add_self_eq_double_witness :
    add ⟨13, 1, 7⟩ (.value 9 11) (.value 9 11) = double ⟨13, 1, 7⟩ (.value 9 11) :=
  add_self_eq_double ⟨13, 1, 7⟩ (.value 9 11) (by decide)
    (fun x y h => by cases h; decide)

/-- C6 counterexample: on the curve `p = 5, a = 1, b = 0` the point `(0, 0)`
is valid, `add((0,0), (0,0))` is `Infinity`, but `double((0,0))` aborts
(`inverse_mod(0, 5)` fails), so `add(P, P) = double(P)` fails for this valid
point. -/
theorem add_self_ne_double_cex :
    is_valid ⟨5, 1, 0⟩ (.value 0 0) = true ∧
    add ⟨5, 1, 0⟩ (.value 0 0) (.value 0 0) = some .infinity ∧
    double ⟨5, 1, 0⟩ (.value 0 0) = none := by
  refine ⟨by decide, by decide, by decide⟩

/-- C3 (amended): for every integer `a` and every modulus `m ≥ 2` with
`gcd(a, m) = 1`, `inverse_mod(a, m)` returns the unique `r ∈ [0, m)` with
`a·r ≡ 1 (mod m)`; in particular `(a * r) mod m = 1`.  (For `m = 1` the
returned value is `1`, which lies outside `[0, 1)` — see the
counterexample.) -/
theorem inverse_mod_correct (a m : Int) (hm : 2 ≤ m) (hg : Int.gcd a m = 1) :
    ∃ r, inverse_mod a m = some r ∧ 0 ≤ r ∧ r < m ∧ (a * r) % m = 1 ∧
      ∀ r', 0 ≤ r' → r' < m → (a * r') % m = 1 → r' = r := by
  obtain ⟨r, hsome, h0, hlt, hdvd⟩ := inverse_mod_full a m hm hg
  have h1m : (1 : Int) % m = 1 := Int.emod_eq_of_lt (by norm_num) (by omega)
  have hmod : (a * r) % m = 1 := by
    have h := Int.emod_eq_emod_iff_emod_sub_eq_zero.mpr (Int.emod_eq_zero_of_dvd hdvd)
    rw [h1m] at h
    exact h
  refine ⟨r, hsome, h0, hlt, hmod, ?_⟩
  intro r' h0' hlt' hmod'
  have hdvd' : m ∣ a * r' - 1 := by
    rw [← h1m] at hmod'
    rw [Int.emod_eq_emod_iff_emod_sub_eq_zero] at hmod'
    exact Int.dvd_of_emod_eq_zero hmod'
  have hd : m ∣ r' - r := by
    have e : r' - r = (a * r' - 1) * r - (a * r - 1) * r' := by ring
    rw [e]
    exact dvd_sub (hdvd'.mul_right r) (hdvd.mul_right r')
  rcases hd with ⟨t, ht⟩
  have ht0 : t = 0 := by
    have h1 : -m < m * t := by omega
    have h2 : m * t < m := by omega
    by_contra hne
    rcases lt_or_gt_of_ne hne with hlt0 | hgt0
    · have hle : t ≤ -1 := by omega
      nlinarith
    · have hle : 1 ≤ t := by omega
      nlinarith
  rw [ht0, mul_zero] at ht
  omega

theorem inverse_mod_correct_witness :
    ∃ r, inverse_mod 5 13 = some r ∧ 0 ≤ r ∧ r < 13 ∧ (5 * r) % 13 = 1 ∧
      ∀ r', 0 ≤ r' → r' < 13 → (5 * r') % 13 = 1 → r' = r :=
  inverse_mod_correct 5 13 (by norm_num) (by decide)

/-- C3 counterexample: at `a = 1`, `m = 1` (a positive modulus, coprime
inputs) the code returns `1`, which is not in `[0, 1)`, and
`(a * r) mod m = 0 ≠ 1`; the claimed contract fails for `m = 1`. -/
theorem inverse_mod_m_one_cex :
    0 < (1 : Int) ∧ Int.gcd 1 1 = 1 ∧ inverse_mod 1 1 = some 1 ∧
    ¬((1 : Int) < 1) ∧ (1 * 1) % (1 : Int) ≠ 1 := by
  refine ⟨by decide, by decide, by decide, by decide, by decide⟩

/-- C8: with a positive modulus, `inverse_mod(a, m)` aborts exactly when
`gcd(a, m) ≠ 1`; when the inputs are coprime it returns a value, and any
returned value satisfies the inverse congruence (it is never silently
wrong). -/
theorem inverse_mod_abort_iff (a m : Int) (hm : 0 < m) :
    (inverse_mod a m = none ↔ Int.gcd a m ≠ 1) ∧
    (∀ r, inverse_mod a m = some r → (a * r) % m = 1 % m) := by
  refine ⟨inverse_mod_eq_none_iff a m hm, ?_⟩
  intro r hr
  exact Int.emod_eq_emod_iff_emod_sub_eq_zero.mpr
    (Int.emod_eq_zero_of_dvd (inverse_mod_congruence a m r hr))

theorem inverse_mod_abort_iff_witness :
    (inverse_mod 4 6 = none ↔ Int.gcd 4 6 ≠ 1) ∧
    inverse_mod 4 6 = none ∧ (5 * 8) % (13 : Int) = 1 % 13 :=
  ⟨(inverse_mod_abort_iff 4 6 (by norm_num)).1,
   (inverse_mod_abort_iff 4 6 (by norm_num)).1.mpr (by decide),
   (inverse_mod_abort_iff 5 13 (by norm_num)).2 8 (by decide)⟩

theorem add_is_valid_witness :
    is_valid ⟨13, 1, 7⟩ (.value 1 10) = true :=
  add_is_valid ⟨13, 1, 7⟩ (.value 9 11) (.value 4 6) (.value 1 10)
    (by decide) (by decide) (by decide)

theorem add_comm_points_witness :
    add ⟨13, 1, 7⟩ (.value 9 11) (.value 4 6) =
      add ⟨13, 1, 7⟩ (.value 4 6) (.value 9 11) :=
  add_comm_points ⟨13, 1, 7⟩ (.value 9 11) (.value 4 6)
    (by norm_num) (by norm_num) (by decide) (by decide)

/-- C1: `add` follows the specified case analysis exactly — an `Infinity`
operand returns the other operand unchanged (raw coordinates); two affine
operands with raw-equal `x` give `Infinity` when `(y1 + y2) mod p = 0` and
`double(p1)` otherwise; and otherwise (whenever the slope inverse is defined)
the chord formulas `λ = (y2 − y1)·inverse(x2 − x1, p) mod p`,
`x3 = (λ² − x1 − x2) mod p`, `y3 = (λ(x1 − x3) − y1) mod p` produce the
result, both coordinates reduced by floor modulo into `[0, p)`. -/
theorem add_case_analysis (C : Curve) (P Q : PointValue) (x1 y1 x2 y2 i : Int) :
    add C P .infinity = some P ∧
    add C .infinity Q = some Q ∧
    ((y1 + y2).fmod C.p = 0 →
      add C (.value x1 y1) (.value x1 y2) = some .infinity) ∧
    ((y1 + y2).fmod C.p ≠ 0 →
      add C (.value x1 y1) (.value x1 y2) = double C (.value x1 y1)) ∧
    (x1 ≠ x2 → inverse_mod (x2 - x1) C.p = some i →
      ∀ l x3 y3 : Int,
        l = ((y2 - y1) * i).fmod C.p →
        x3 = (l * l - x1 - x2).fmod C.p →
        y3 = (l * (x1 - x3) - y1).fmod C.p →
        add C (.value x1 y1) (.value x2 y2) = some (.value x3 y3) ∧
        (0 < C.p → 0 ≤ x3 ∧ x3 < C.p ∧ 0 ≤ y3 ∧ y3 < C.p)) := by
  refine ⟨add_infinity_right C P, add_infinity_left C Q, ?_, ?_, ?_⟩
  · intro h
    rw [add_same_x, if_pos h]
  · intro h
    rw [add_same_x, if_neg h]
  · intro hx hi l x3 y3 hl hx3 hy3
    subst hl hx3 hy3
    refine ⟨add_general C x1 y1 x2 y2 i hx hi, fun hp => ?_⟩
    exact ⟨Int.fmod_nonneg' _ hp, Int.fmod_lt_of_pos _ hp,
      Int.fmod_nonneg' _ hp, Int.fmod_lt_of_pos _ hp⟩

theorem add_case_analysis_witness :
    add ⟨13, 1, 7⟩ (.value 9 11) .infinity = some (.value 9 11) ∧
    add ⟨13, 1, 7⟩ .infinity (.value 4 6) = some (.value 4 6) ∧
    add ⟨13, 1, 7⟩ (.value 2 3) (.value 2 (-3)) = some .infinity ∧
    add ⟨13, 1, 7⟩ (.value 9 11) (.value 9 11) = double ⟨13, 1, 7⟩ (.value 9 11) ∧
    add ⟨13, 1, 7⟩ (.value 9 11) (.value 4 6) = some (.value 1 10) ∧
    (0 ≤ (1 : Int) ∧ (1 : Int) < 13 ∧ 0 ≤ (10 : Int) ∧ (10 : Int) < 13) := by
  have h5 := (add_case_analysis ⟨13, 1, 7⟩ .infinity .infinity 9 11 4 6 5).2.2.2.2
    (by decide) (by decide) 1 1 10 (by decide) (by decide) (by decide)
  exact ⟨(add_case_analysis ⟨13, 1, 7⟩ (.value 9 11) .infinity 0 0 0 0 0).1,
    (add_case_analysis ⟨13, 1, 7⟩ .infinity (.value 4 6) 0 0 0 0 0).2.1,
    (add_case_analysis ⟨13, 1, 7⟩ .infinity .infinity 2 3 0 (-3) 0).2.2.1 (by decide),
    (add_case_analysis ⟨13, 1, 7⟩ .infinity .infinity 9 11 0 11 0).2.2.2.1 (by decide),
    h5.1, h5.2 (by norm_num)⟩

/-- C2: `double` follows the specified definition — `double(Infinity)` is
`Infinity`; for an affine `(x, y)` (whenever the inverse of `2y` is defined)
`λ = (3x² + a)·inverse(2y, p) mod p`, `x' = (λ² − 2x) mod p`,
`y' = (λ(x − x') − y) mod p`, both coordinates reduced into `[0, p)`; and when
`y ≡ 0 (mod p)` the inverse computation fails, so the operation aborts
(stated for `p > 1`, as the curve contract's prime modulus guarantees). -/
theorem double_spec (C : Curve) (x y i : Int) :
    double C .infinity = some .infinity ∧
    (inverse_mod (2 * y) C.p = some i →
      ∀ l x3 y3 : Int,
        l = ((3 * x * x + C.a) * i).fmod C.p →
        x3 = (l * l - 2 * x).fmod C.p →
        y3 = (l * (x - x3) - y).fmod C.p →
        double C (.value x y) = some (.value x3 y3) ∧
        (0 < C.p → 0 ≤ x3 ∧ x3 < C.p ∧ 0 ≤ y3 ∧ y3 < C.p)) ∧
    (1 < C.p → C.p ∣ y → double C (.value x y) = none) := by
  refine ⟨rfl, ?_, ?_⟩
  · intro hi l x3 y3 hl hx3 hy3
    subst hl hx3 hy3
    refine ⟨double_value C x y i hi, fun hp => ?_⟩
    exact ⟨Int.fmod_nonneg' _ hp, Int.fmod_lt_of_pos _ hp,
      Int.fmod_nonneg' _ hp, Int.fmod_lt_of_pos _ hp⟩
  · intro hp hdvd
    apply double_none
    rw [inverse_mod_eq_none_iff _ _ (by omega)]
    have h2y : C.p ∣ 2 * y := hdvd.mul_left 2
    rw [Int.gcd_eq_right h2y]
    intro h1
    have hcast : (C.p.natAbs : Int) = C.p := Int.natAbs_of_nonneg (by omega)
    omega

theorem double_spec_witness :
    double ⟨13, 1, 7⟩ .infinity = some .infinity ∧
    double ⟨13, 1, 7⟩ (.value 9 11) = some (.value 11 7) ∧
    (0 ≤ (11 : Int) ∧ (11 : Int) < 13 ∧ 0 ≤ (7 : Int) ∧ (7 : Int) < 13) ∧
    double ⟨13, 1, 7⟩ (.value 4 0) = none := by
  have h := (double_spec ⟨13, 1, 7⟩ 9 11 3).2.1 (by decide) 4 11 7
    (by decide) (by decide) (by decide)
  exact ⟨(double_spec ⟨13, 1, 7⟩ 0 0 0).1, h.1, h.2 (by norm_num),
    (double_spec ⟨13, 1, 7⟩ 4 0 0).2.2 (by norm_num) (by decide)⟩

end ECRS
